import Mathlib

/-
Verification of the zenith reactive state container (do-md/zenith).

The development shallowly embeds the store's memoization and history
subsystem from `src/core/BaseStore.ts` and `src/core/memo.ts`:

* the store's state, listener set and history log become a Lean structure
  (`BaseStore`), with JS numbers for the history cursor embedded as `Int`;
* the immutable-update primitive (immer) is an external collaborator: a
  mutation is represented by the outcome of the `produce` call — either an
  exception, or a new state together with the forward/inverse patch batches
  the patch listener receives; `applyPatches` is an abstract parameter
  `ap : σ → List π → σ`;
* listener notification is made observable as the list of
  `(newState, prevState)` pairs delivered to the registered listeners;
* the two timers (the debounced closing of an open history entry and the
  `preventPatches` suppression guard) are embedded as data: the delay each
  call arms, plus explicit transition functions for their callbacks firing
  (`clearLastFired`, `preventGuardFired`).

In the TypeScript source, `historyState.last` is an object reference into
`historyState.list`; while it is set, no operation restructures the list
(truncation and eviction happen only in the `!state.last` branch), so the
embedding faithfully represents it by the index of the open entry.
-/

set_option maxHeartbeats 1000000

namespace Zenith

/-- Constructor options of `BaseStore` (`StoreOptions` in `src/type`). -/
structure StoreOptions where
  enablePatch : Bool := false
  enableHistory : Bool := false
  historyLength : Nat := 30
  historyDebounceTime : Nat := 100
deriving DecidableEq

/-- `HistoryConfig`: derived from the constructor options. -/
structure HistoryConfig where
  enabled : Bool
  maxLength : Nat
  debounceTime : Nat
deriving DecidableEq

/-- One coalesced undo/redo unit: ordered forward patch batches and inverse
patch batches (`History` in the source). -/
structure HistoryEntry (π : Type) where
  patches : List (List π)
  inversePatches : List (List π)
deriving DecidableEq

/-- `HistoryState`: the log, the cursor (a JS number, which goes to `-1`
after undoing everything, hence `Int`), the open entry (by index, see the
header comment), and the two transient flags. -/
structure HistoryState (π : Type) where
  list : List (HistoryEntry π)
  cursor : Int
  last : Option Nat
  preventPatches : Bool
  keepRecord : Bool
deriving DecidableEq

/-- The store: current state, construction-time state, registered listeners
(identities, in insertion order, as a JS `Set` iterates), history
configuration and state, and the delay the constructor gave the debounced
`_clearLastChange` closure (`none` when history is disabled and the closure
is never created). -/
structure BaseStore (σ π : Type) where
  state : σ
  initialState : σ
  listeners : List Nat
  historyConfig : HistoryConfig
  historyState : HistoryState π
  clearLastDelay : Option Nat
deriving DecidableEq

/-- The `BaseStore` constructor. -/
def init (σ π : Type) (initState : σ) (opts : StoreOptions) : BaseStore σ π :=
  { state := initState
    initialState := initState
    listeners := []
    historyConfig :=
      { enabled := opts.enableHistory
        maxLength := opts.historyLength
        debounceTime := opts.historyDebounceTime }
    historyState :=
      { list := [], cursor := 0, last := none
        preventPatches := false, keepRecord := false }
    clearLastDelay :=
      if opts.enableHistory then some (opts.historyDebounceTime + 100) else none }

/-- JS array indexing `list[i]` with a possibly negative index. -/
def listGetInt {α : Type} (l : List α) (i : Int) : Option α :=
  if 0 ≤ i then l.get? i.toNat else none

/-- The `while (state.cursor < state.list.length - 1) state.list.pop()` loop
of `recordHistory`, with the list length as fuel: each iteration of the
source loop pops one element, so `l.length` iterations always suffice for
the reachable cursors (`-1 ≤ cursor`). -/
def truncateGo {π : Type} (fuel : Nat) (cursor : Int) (l : List (HistoryEntry π)) :
    List (HistoryEntry π) :=
  match fuel with
  | 0 => l
  | fuel + 1 =>
    if cursor < (l.length : Int) - 1 then truncateGo fuel cursor l.dropLast else l

/-- Truncation of the redo tail in `recordHistory`. -/
def truncateAfterCursor {π : Type} (cursor : Int) (l : List (HistoryEntry π)) :
    List (HistoryEntry π) :=
  truncateGo l.length cursor l

/-- In-place update of the element at index `i` (mutation through the
`state.last` reference in the source updates the entry inside the list). -/
def modifyAt {α : Type} (l : List α) (i : Nat) (f : α → α) : List α :=
  match l, i with
  | [], _ => []
  | x :: xs, 0 => f x :: xs
  | x :: xs, n + 1 => x :: modifyAt xs n f

/-- `BaseStore.recordHistory`, acting on the history state.  With no open
entry: pop everything after the cursor, shift the front entry out if the
length exceeds `maxLength`, push the fresh entry and point `cursor`/`last`
at it.  With an open entry: append the forward batch at the end of its
`patches` and prepend the inverse batch at the front of its
`inversePatches`. -/
def recordHistory {π : Type} (cfg : HistoryConfig) (s : HistoryState π)
    (patches inversePatches : List π) : HistoryState π :=
  match s.last with
  | none =>
    let l1 := truncateAfterCursor s.cursor s.list
    let l2 := if cfg.maxLength < l1.length then l1.drop 1 else l1
    let l3 := l2 ++ [{ patches := [patches], inversePatches := [inversePatches] }]
    { s with list := l3, cursor := (l3.length : Int) - 1, last := some (l3.length - 1) }
  | some i =>
    { s with list := modifyAt s.list i (fun e =>
        { patches := e.patches ++ [patches]
          inversePatches := inversePatches :: e.inversePatches }) }

/-- Observable outcome of one `produceData` call: the store afterwards, the
exception (if the draft function threw), the `(newState, prevState)` pairs
delivered to the listeners, and the delay `recordHistory` armed the
debounced entry-closing timer with (if it called `_clearLastChange`). -/
structure ProduceResult (σ π ε : Type) where
  store : BaseStore σ π
  thrown : Option ε
  notified : List (σ × σ)
  armedClearDelay : Option Nat
deriving DecidableEq

/-- `BaseStore.produceData`.  The immer call is the external collaborator:
`fn` returns either the exception the draft function threw, or the new
state and the patch batches handed to the patch listener.  On success the
listener records history (unless history is disabled, suppressed by
`preventPatches`, or the call passed `disableRecord`), the state is
replaced and every registered listener observes `(newState, prevState)`.
On an exception nothing is committed and nobody is notified. -/
def produceData {σ π ε : Type} (st : BaseStore σ π)
    (fn : σ → Except ε (σ × List π × List π)) (disableRecord : Bool) :
    ProduceResult σ π ε :=
  match fn st.state with
  | Except.error e =>
    { store := st, thrown := some e, notified := [], armedClearDelay := none }
  | Except.ok (newState, patches, inversePatches) =>
    let record := st.historyConfig.enabled
      && !st.historyState.preventPatches && !disableRecord
    { store :=
        { st with
          state := newState
          historyState :=
            if record then
              recordHistory st.historyConfig st.historyState patches inversePatches
            else st.historyState }
      thrown := none
      notified := st.listeners.map (fun _ => (newState, st.state))
      armedClearDelay :=
        if record && !st.historyState.keepRecord then st.clearLastDelay else none }

/-- Observable outcome of `undo`/`redo`: the store afterwards, the listener
notifications the call performed (the source bodies contain none), and the
delay of the `setTimeout` that will clear `preventPatches` (when armed). -/
structure HistoryOpResult (σ π : Type) where
  store : BaseStore σ π
  notified : List (σ × σ)
  guardDelay : Option Nat
deriving DecidableEq

/-- Body of `BaseStore.undo` after the enabled check: silently return when
`cursor < 0` or no entry sits at the cursor; otherwise replay every inverse
batch of the entry in list order, raise the suppression guard and move the
cursor back. -/
def undoCore {σ π : Type} (ap : σ → List π → σ) (st : BaseStore σ π) :
    HistoryOpResult σ π :=
  let s := st.historyState
  if s.cursor < 0 then { store := st, notified := [], guardDelay := none }
  else
    match listGetInt s.list s.cursor with
    | none => { store := st, notified := [], guardDelay := none }
    | some h =>
      { store :=
          { st with
            state := h.inversePatches.foldl ap st.state
            historyState := { s with preventPatches := true, cursor := s.cursor - 1 } }
        notified := []
        guardDelay := some st.historyConfig.debounceTime }

/-- Error message of `undo`/`redo` on a store without history. -/
def historyDisabledMsg : String := "History is not enabled"

/-- `BaseStore.undo`: throws when history is not enabled. -/
def undo {σ π : Type} (ap : σ → List π → σ) (st : BaseStore σ π) :
    Except String (HistoryOpResult σ π) :=
  if st.historyConfig.enabled then Except.ok (undoCore ap st)
  else Except.error historyDisabledMsg

/-- Body of `BaseStore.redo` after the enabled check: silently return when
no entry sits at `cursor + 1`; otherwise replay every forward batch of that
entry in list order, raise the suppression guard and advance the cursor. -/
def redoCore {σ π : Type} (ap : σ → List π → σ) (st : BaseStore σ π) :
    HistoryOpResult σ π :=
  let s := st.historyState
  match listGetInt s.list (s.cursor + 1) with
  | none => { store := st, notified := [], guardDelay := none }
  | some h =>
    { store :=
        { st with
          state := h.patches.foldl ap st.state
          historyState := { s with preventPatches := true, cursor := s.cursor + 1 } }
      notified := []
      guardDelay := some st.historyConfig.debounceTime }

/-- `BaseStore.redo`: throws when history is not enabled. -/
def redo {σ π : Type} (ap : σ → List π → σ) (st : BaseStore σ π) :
    Except String (HistoryOpResult σ π) :=
  if st.historyConfig.enabled then Except.ok (redoCore ap st)
  else Except.error historyDisabledMsg

/-- The debounced `_clearLastChange` timer firing: the open entry closes. -/
def clearLastFired {σ π : Type} (st : BaseStore σ π) : BaseStore σ π :=
  { st with historyState := { st.historyState with last := none } }

/-- The suppression-guard `setTimeout` firing: `preventPatches` drops. -/
def preventGuardFired {σ π : Type} (st : BaseStore σ π) : BaseStore σ π :=
  { st with historyState := { st.historyState with preventPatches := false } }

/-- Store part of an `undo` call (history enabled). -/
def undoStep {σ π : Type} (ap : σ → List π → σ) (st : BaseStore σ π) : BaseStore σ π :=
  (undoCore ap st).store

/-- Store part of a `redo` call (history enabled). -/
def redoStep {σ π : Type} (ap : σ → List π → σ) (st : BaseStore σ π) : BaseStore σ π :=
  (redoCore ap st).store

/-!  Memoizer (`src/core/memo.ts`).  The per-store `Map<string,
MemoCacheEntry>` from the `WeakMap` is embedded as an association list over
the property names; a JS `Map` never holds two bindings for one key, which
the well-formedness predicate `mapWF` expresses for the stores' maps. -/

/-- `MemoCacheEntry`: cached value, the dependency list it was computed
under, and the subscription reference count. -/
structure MemoCacheEntry (δ ν : Type) where
  value : ν
  deps : List δ
  refCount : Int
deriving DecidableEq

/-- The per-store memo cache keyed by property name. -/
def MemoMap (δ ν : Type) : Type := List (String × MemoCacheEntry δ ν)

/-- `Map.get`. -/
def mapGet {δ ν : Type} : MemoMap δ ν → String → Option (MemoCacheEntry δ ν)
  | [], _ => none
  | (k, e) :: rest, key => if k = key then some e else mapGet rest key

/-- `Map.set`: replace the binding in place when the key is present,
otherwise append a fresh binding. -/
def mapSet {δ ν : Type} : MemoMap δ ν → String → MemoCacheEntry δ ν → MemoMap δ ν
  | [], key, e => [(key, e)]
  | (k, e0) :: rest, key, e =>
    if k = key then (k, e) :: rest else (k, e0) :: mapSet rest key e

/-- `Map.delete`: remove the binding of the key (a JS `Map` holds at most
one). -/
def mapDelete {δ ν : Type} : MemoMap δ ν → String → MemoMap δ ν
  | [], _ => []
  | (k, e0) :: rest, key =>
    if k = key then rest else (k, e0) :: mapDelete rest key

/-- Key uniqueness, the `Map` representation invariant. -/
def mapWF {δ ν : Type} (m : MemoMap δ ν) : Prop :=
  (m.map Prod.fst).Nodup

/-- The dependency comparison of the memoized getter:
`deps.length !== cacheEntry.deps.length || deps.some((dep, i) => dep !==
cacheEntry.deps[i])` — length plus positional shallow equality. -/
def depsChanged {δ : Type} [DecidableEq δ] (deps cached : List δ) : Bool :=
  decide (deps.length ≠ cached.length)
    || (deps.zip cached).any (fun p => decide (p.1 ≠ p.2))

/-- The getter `memo` installs: compute the dependency list; on a cache hit
with unchanged dependencies return the cached value; otherwise call the
original getter once and store `{value, deps, refCount := old or 0}`.  The
result's third component counts the calls to the original getter. -/
def memoRead {σ δ ν : Type} [DecidableEq δ] (getDeps : σ → List δ)
    (originalGetter : σ → ν) (store : σ) (m : MemoMap δ ν) (propertyKey : String) :
    ν × MemoMap δ ν × Nat :=
  let deps := getDeps store
  match mapGet m propertyKey with
  | some cacheEntry =>
    if depsChanged deps cacheEntry.deps then
      let value := originalGetter store
      (value, mapSet m propertyKey
        { value := value, deps := deps, refCount := cacheEntry.refCount }, 1)
    else (cacheEntry.value, m, 0)
  | none =>
    let value := originalGetter store
    (value, mapSet m propertyKey { value := value, deps := deps, refCount := 0 }, 1)

/-- `trackGetterAccess`: increment `refCount` on the existing entry, no-op
when absent. -/
def trackGetterAccess {δ ν : Type} (m : MemoMap δ ν) (propertyName : String) :
    MemoMap δ ν :=
  match mapGet m propertyName with
  | some entry => mapSet m propertyName { entry with refCount := entry.refCount + 1 }
  | none => m

/-- `untrackGetterAccess`: decrement `refCount`, delete the entry once the
decremented count is `≤ 0`, no-op when absent. -/
def untrackGetterAccess {δ ν : Type} (m : MemoMap δ ν) (propertyName : String) :
    MemoMap δ ν :=
  match mapGet m propertyName with
  | some entry =>
    if entry.refCount - 1 ≤ 0 then mapDelete m propertyName
    else mapSet m propertyName { entry with refCount := entry.refCount - 1 }
  | none => m

/-!  Scenario plumbing: a debounce-separated or coalesced sequence of
mutations, and the concrete patch model used by witnesses. -/

/-- One mutation of a scenario, given by the immer outcome: the new state
and the forward/inverse patch batches. -/
structure MutStep (σ π : Type) where
  next : σ
  patches : List π
  inversePatches : List π
deriving DecidableEq

/-- The fresh history entry `recordHistory` creates for a mutation. -/
def mkEntry {σ π : Type} (m : MutStep σ π) : HistoryEntry π :=
  { patches := [m.patches], inversePatches := [m.inversePatches] }

/-- Draft function of a non-throwing mutation, as `produceData` sees it. -/
def okFn {σ π : Type} (m : MutStep σ π) : σ → Except String (σ × List π × List π) :=
  fun _ => Except.ok (m.next, m.patches, m.inversePatches)

/-- One debounce-separated mutation: `produceData`, then the entry-closing
timer fires before the next call. -/
def stepStore {σ π : Type} (st : BaseStore σ π) (m : MutStep σ π) : BaseStore σ π :=
  clearLastFired (produceData st (okFn m) false).store

/-- A sequence of debounce-separated mutations. -/
def runSteps {σ π : Type} (st : BaseStore σ π) (steps : List (MutStep σ π)) :
    BaseStore σ π :=
  steps.foldl stepStore st

/-- One mutation inside the debounce window (the timer does not fire). -/
def coalStep {σ π : Type} (st : BaseStore σ π) (m : MutStep σ π) : BaseStore σ π :=
  (produceData st (okFn m) false).store

/-- A burst of mutations all within the debounce window. -/
def runCoalesced {σ π : Type} (st : BaseStore σ π) (steps : List (MutStep σ π)) :
    BaseStore σ π :=
  steps.foldl coalStep st

/-- State after the steps (the last `next`, or the start state). -/
def stateAt {σ π : Type} (s0 : σ) (steps : List (MutStep σ π)) : σ :=
  steps.foldl (fun _ m => m.next) s0

/-- The immer contract along a mutation sequence: each forward batch maps
the previous state to the new one, each inverse batch maps back. -/
def chain {σ π : Type} (ap : σ → List π → σ) : σ → List (MutStep σ π) → Prop
  | _, [] => True
  | s, m :: rest =>
    ap s m.patches = m.next ∧ ap m.next m.inversePatches = s ∧ chain ap m.next rest

/-- Concrete patch model for witnesses: the state is a number and a patch
replaces it wholesale, so a batch applies last-writer-wins. -/
def apReplace (s : Nat) (ps : List Nat) : Nat :=
  ps.foldl (fun _ p => p) s

/-!  Lemmas on the association-list embedding of the memo cache map. -/

lemma depsChanged_false_iff {δ : Type} [DecidableEq δ] :
    ∀ (a b : List δ), depsChanged a b = false ↔ a = b := by
  intro a
  induction a with
  | nil => intro b; cases b <;> simp [depsChanged]
  | cons x xs ih =>
    intro b
    cases b with
    | nil => simp [depsChanged]
    | cons y ys =>
      have h := ih ys
      simp [depsChanged] at h ⊢
      constructor
      · rintro ⟨hlen, hx, hall⟩
        exact ⟨hx, h.mp ⟨hlen, hall⟩⟩
      · rintro ⟨hx, hys⟩
        rcases h.mpr hys with ⟨hlen, hall⟩
        exact ⟨hlen, hx, hall⟩

lemma mapGet_mapSet_self {δ ν : Type} (m : MemoMap δ ν) (k : String)
    (e : MemoCacheEntry δ ν) : mapGet (mapSet m k e) k = some e := by
  induction m with
  | nil => simp [mapSet, mapGet]
  | cons p rest ih =>
    by_cases h : p.1 = k
    · simp [mapSet, mapGet, h]
    · simp [mapSet, mapGet, h, ih]

lemma mapGet_none_iff {δ ν : Type} (m : MemoMap δ ν) (k : String) :
    mapGet m k = none ↔ k ∉ m.map Prod.fst := by
  induction m with
  | nil => simp [mapGet]
  | cons p rest ih =>
    by_cases h : p.1 = k
    · simp [mapGet, h]
    · simp [mapGet, h, ih, Ne.symm h]

lemma mapSet_keys_of_get {δ ν : Type} (m : MemoMap δ ν) (k : String)
    (ce e : MemoCacheEntry δ ν) (h : mapGet m k = some ce) :
    (mapSet m k e).map Prod.fst = m.map Prod.fst := by
  induction m with
  | nil => simp [mapGet] at h
  | cons p rest ih =>
    by_cases hk : p.1 = k
    · simp [mapSet, hk]
    · simp [mapGet, hk] at h
      simp [mapSet, hk, ih h]

lemma mapDelete_keys_sublist {δ ν : Type} (m : MemoMap δ ν) (k : String) :
    ((mapDelete m k).map Prod.fst).Sublist (m.map Prod.fst) := by
  induction m with
  | nil => simp [mapDelete]
  | cons p rest ih =>
    by_cases hk : p.1 = k
    · simp only [mapDelete, if_pos hk, List.map_cons]
      exact List.sublist_cons_self _ _
    · simp only [mapDelete, if_neg hk, List.map_cons]
      exact ih.cons₂ _

lemma mapWF_mapDelete {δ ν : Type} (m : MemoMap δ ν) (k : String) (h : mapWF m) :
    mapWF (mapDelete m k) :=
  List.Nodup.sublist (mapDelete_keys_sublist m k) h

lemma mapGet_mapDelete_self {δ ν : Type} (m : MemoMap δ ν) (k : String)
    (h : mapWF m) : mapGet (mapDelete m k) k = none := by
  induction m with
  | nil => simp [mapDelete, mapGet]
  | cons p rest ih =>
    by_cases hk : p.1 = k
    · simp only [mapDelete, if_pos hk]
      rw [mapGet_none_iff]
      intro hmem
      have hp : p.1 ∈ rest.map Prod.fst := hk ▸ hmem
      exact (List.nodup_cons.mp h).1 hp
    · simp only [mapDelete, if_neg hk, mapGet, if_neg hk]
      exact ih (List.nodup_cons.mp h).2

lemma trackGetterAccess_get_some {δ ν : Type} (m : MemoMap δ ν) (k : String)
    (ce : MemoCacheEntry δ ν) (h : mapGet m k = some ce) :
    mapGet (trackGetterAccess m k) k = some { ce with refCount := ce.refCount + 1 } := by
  simp only [trackGetterAccess, h]
  exact mapGet_mapSet_self m k _

lemma trackGetterAccess_keys {δ ν : Type} (m : MemoMap δ ν) (k : String) :
    (trackGetterAccess m k).map Prod.fst = m.map Prod.fst := by
  unfold trackGetterAccess
  cases h : mapGet m k with
  | none => rfl
  | some ce => exact mapSet_keys_of_get m k ce _ h

lemma trackN_get {δ ν : Type} (k : String) :
    ∀ (n : Nat) (m : MemoMap δ ν) (ce : MemoCacheEntry δ ν), mapGet m k = some ce →
      mapGet ((fun mm => trackGetterAccess mm k)^[n] m) k
          = some { ce with refCount := ce.refCount + n } ∧
        ((fun mm => trackGetterAccess mm k)^[n] m).map Prod.fst = m.map Prod.fst := by
  intro n
  induction n with
  | zero => intro m ce h; simpa using h
  | succ n ih =>
    intro m ce h
    rw [Function.iterate_succ_apply]
    have h1 := trackGetterAccess_get_some m k ce h
    rcases ih (trackGetterAccess m k) _ h1 with ⟨hget, hkeys⟩
    refine ⟨?_, by rw [hkeys, trackGetterAccess_keys]⟩
    rw [hget]
    have harith : ce.refCount + 1 + (n : Int) = ce.refCount + ((n : Nat) + 1 : Nat) := by
      push_cast
      ring
    simp only [harith]

lemma untrackN_none {δ ν : Type} (k : String) :
    ∀ (n : Nat) (m : MemoMap δ ν) (ce : MemoCacheEntry δ ν), mapWF m →
      mapGet m k = some ce → ce.refCount = n → 1 ≤ n →
      mapGet ((fun mm => untrackGetterAccess mm k)^[n] m) k = none := by
  intro n
  induction n with
  | zero => intro _ _ _ _ _ h1; omega
  | succ n ih =>
    intro m ce hwf hget hrc _
    rw [Function.iterate_succ_apply]
    by_cases hn : n = 0
    · subst hn
      have hle : ce.refCount - 1 ≤ 0 := by omega
      have hdel : untrackGetterAccess m k = mapDelete m k := by
        simp only [untrackGetterAccess, hget, if_pos hle]
      rw [hdel]
      simpa using mapGet_mapDelete_self m k hwf
    · have hgt : ¬ (ce.refCount - 1 ≤ 0) := by omega
      have hset : untrackGetterAccess m k
          = mapSet m k { ce with refCount := ce.refCount - 1 } := by
        simp only [untrackGetterAccess, hget, if_neg hgt]
      rw [hset]
      apply ih
      · unfold mapWF
        rw [mapSet_keys_of_get m k ce _ hget]
        exact hwf
      · exact mapGet_mapSet_self m k _
      · show ce.refCount - 1 = (n : Int)
        omega
      · omega

/-!  Concrete fixtures used by the witnesses. -/

/-- A property name. -/
def memoKey : String := "double"

/-- A one-entry memo cache whose entry was created by a first read
(`refCount = 0`). -/
def mHit : MemoMap Nat Nat :=
  [(memoKey, { value := 42, deps := [1], refCount := 0 })]

/-- C4: with an existing cache entry, a read whose freshly computed
dependency list has the cached list's length and passes positional shallow
equality returns the cached value with the cache untouched and the original
getter not invoked; a read with some differing position invokes the getter
exactly once and overwrites `value` and `deps`, preserving `refCount`. -/
theorem c4_memo_positional_cache {σ δ ν : Type} [DecidableEq δ]
    (getDeps : σ → List δ) (getter : σ → ν) (s : σ) (m : MemoMap δ ν)
    (key : String) (ce : MemoCacheEntry δ ν) (hce : mapGet m key = some ce) :
    (((getDeps s).length = ce.deps.length ∧
        (∀ i, (getDeps s).get? i = ce.deps.get? i)) →
      memoRead getDeps getter s m key = (ce.value, m, 0)) ∧
    ((∃ i, (getDeps s).get? i ≠ ce.deps.get? i) →
      memoRead getDeps getter s m key
        = (getter s, mapSet m key
            { value := getter s, deps := getDeps s, refCount := ce.refCount }, 1)) := by
  constructor
  · rintro ⟨-, hpos⟩
    have heq : getDeps s = ce.deps := List.ext_get? hpos
    have hch : depsChanged (getDeps s) ce.deps = false :=
      (depsChanged_false_iff _ _).mpr heq
    simp [memoRead, hce, hch]
  · rintro ⟨i, hi⟩
    have hne : getDeps s ≠ ce.deps := fun heq => hi (by rw [heq])
    have hch : depsChanged (getDeps s) ce.deps = true := by
      cases hch : depsChanged (getDeps s) ce.deps with
      | false => exact absurd ((depsChanged_false_iff _ _).mp hch) hne
      | true => rfl
    simp [memoRead, hce, hch]

/-- C4 witness: a cache hit on `mHit` returns the cached `42` without
computing, and a read with a changed dependency recomputes once. -/
theorem c4_memo_positional_cache_witness :
    mapGet mHit memoKey = some { value := 42, deps := [1], refCount := 0 } ∧
    memoRead (fun (_ : Nat) => [1]) (fun _ => 99) 0 mHit memoKey = (42, mHit, 0) :=
  ⟨rfl,
    (c4_memo_positional_cache (fun (_ : Nat) => [1]) (fun _ => 99) 0 mHit memoKey
      { value := 42, deps := [1], refCount := 0 } rfl).1 ⟨rfl, fun _ => rfl⟩⟩

/-- C5: `trackGetterAccess` is a no-op without an entry and increments
`refCount` on one; `untrackGetterAccess` deletes the entry once the
decremented count is `≤ 0`; after `n ≥ 1` tracks and `n` untracks of an
entry whose `refCount` was its creation value `0`, the entry is gone and
the next read calls the original getter (once) regardless of the
dependency list. -/
theorem c5_refcount_reclamation {σ δ ν : Type} [DecidableEq δ]
    (m : MemoMap δ ν) (key : String) :
    (mapGet m key = none → trackGetterAccess m key = m) ∧
    (∀ ce, mapGet m key = some ce →
      mapGet (trackGetterAccess m key) key
        = some { ce with refCount := ce.refCount + 1 }) ∧
    (∀ ce, mapWF m → mapGet m key = some ce → ce.refCount - 1 ≤ 0 →
      mapGet (untrackGetterAccess m key) key = none) ∧
    (∀ ce (n : Nat), mapWF m → mapGet m key = some ce → ce.refCount = 0 → 1 ≤ n →
      mapGet ((fun mm => untrackGetterAccess mm key)^[n]
        ((fun mm => trackGetterAccess mm key)^[n] m)) key = none ∧
      ∀ (getDeps : σ → List δ) (getter : σ → ν) (s : σ),
        (memoRead getDeps getter s
          ((fun mm => untrackGetterAccess mm key)^[n]
            ((fun mm => trackGetterAccess mm key)^[n] m)) key).2.2 = 1) := by
  refine ⟨?_, ?_, ?_, ?_⟩
  · intro h
    simp [trackGetterAccess, h]
  · intro ce hget
    exact trackGetterAccess_get_some m key ce hget
  · intro ce hwf hget hle
    simp only [untrackGetterAccess, hget, if_pos hle]
    exact mapGet_mapDelete_self m key hwf
  · intro ce n hwf hget hrc hn
    obtain ⟨hget', hkeys⟩ := trackN_get key n m ce hget
    have hwf' : mapWF ((fun mm => trackGetterAccess mm key)^[n] m) := by
      unfold mapWF
      rw [hkeys]
      exact hwf
    have hrc' : ({ ce with refCount := ce.refCount + n } :
        MemoCacheEntry δ ν).refCount = (n : Int) := by
      show ce.refCount + n = (n : Int)
      omega
    have hnone := untrackN_none key n _ _ hwf' hget' hrc' hn
    refine ⟨hnone, ?_⟩
    intro getDeps getter s
    simp [memoRead, hnone]

/-- C5 witness: two tracks then two untracks on `mHit` reclaim the entry
and the next read recomputes (getter called once) with unchanged
dependencies. -/
theorem c5_refcount_reclamation_witness :
    mapWF mHit ∧
    mapGet ((fun mm => untrackGetterAccess mm memoKey)^[2]
      ((fun mm => trackGetterAccess mm memoKey)^[2] mHit)) memoKey = none ∧
    (memoRead (fun (_ : Nat) => [1]) (fun _ => 42) 0
      ((fun mm => untrackGetterAccess mm memoKey)^[2]
        ((fun mm => trackGetterAccess mm memoKey)^[2] mHit)) memoKey).2.2 = 1 := by
  have hwf : mapWF mHit := by
    unfold mapWF mHit
    simp
  have h := (c5_refcount_reclamation (σ := Nat) mHit memoKey).2.2.2
    { value := 42, deps := [1], refCount := 0 } 2 hwf rfl rfl (by omega)
  exact ⟨hwf, h.1, h.2 (fun _ => [1]) (fun _ => 42) 0⟩

/-- Constructor options with every default (history disabled). -/
def optsPlain : StoreOptions := {}

/-- Constructor options enabling history with the default bounds. -/
def optsH : StoreOptions := { enableHistory := true }

/-- Constructor options enabling history with `maxLength = 2`. -/
def optsML2 : StoreOptions := { enableHistory := true, historyLength := 2 }

/-- Constructor options enabling history with `maxLength = 1`. -/
def optsML1 : StoreOptions := { enableHistory := true, historyLength := 1 }

/-- Replace-patch mutation `0 → 1`. -/
def step1 : MutStep Nat Nat := { next := 1, patches := [1], inversePatches := [0] }

/-- Replace-patch mutation `1 → 2`. -/
def step2 : MutStep Nat Nat := { next := 2, patches := [2], inversePatches := [1] }

/-- Replace-patch mutation `2 → 3`. -/
def step3 : MutStep Nat Nat := { next := 3, patches := [3], inversePatches := [2] }

/-- A draft function that throws. -/
def errFn : Nat → Except Nat (Nat × List Nat × List Nat) := fun _ => Except.error 7

/-- C3: when the draft function throws during `produceData`, the store is
unchanged (its state the identical value held before the call), no listener
is invoked, and the exception propagates unmodified. -/
theorem c3_mutation_atomicity {σ π ε : Type} (st : BaseStore σ π)
    (fn : σ → Except ε (σ × List π × List π)) (disableRecord : Bool) (e : ε)
    (h : fn st.state = Except.error e) :
    (produceData st fn disableRecord).store = st ∧
    (produceData st fn disableRecord).thrown = some e ∧
    (produceData st fn disableRecord).notified = [] := by
  simp [produceData, h]

/-- C3 witness: a throwing draft on a fresh store leaves it untouched. -/
theorem c3_mutation_atomicity_witness :
    errFn (init Nat Nat 0 optsPlain).state = Except.error 7 ∧
    (produceData (init Nat Nat 0 optsPlain) errFn false).store = init Nat Nat 0 optsPlain ∧
    (produceData (init Nat Nat 0 optsPlain) errFn false).thrown = some 7 ∧
    (produceData (init Nat Nat 0 optsPlain) errFn false).notified = [] :=
  ⟨rfl, c3_mutation_atomicity (init Nat Nat 0 optsPlain) errFn false 7 rfl⟩

/-- The notifications of an `undo` body are none (no listener call occurs
in its source). -/
lemma undoCore_notified {σ π : Type} (ap : σ → List π → σ) (st : BaseStore σ π) :
    (undoCore ap st).notified = [] := by
  unfold undoCore
  dsimp only
  split
  · rfl
  · split <;> rfl

/-- The notifications of a `redo` body are none. -/
lemma redoCore_notified {σ π : Type} (ap : σ → List π → σ) (st : BaseStore σ π) :
    (redoCore ap st).notified = [] := by
  unfold redoCore
  dsimp only
  split <;> rfl

/-- C8: `undo`/`redo` raise the configuration error exactly when history is
not enabled; with history enabled, `undo` with `cursor < 0` and `redo` with
no entry at `cursor + 1` silently return the untouched store. -/
theorem c8_error_iff_disabled {σ π : Type} (ap : σ → List π → σ) (st : BaseStore σ π) :
    (st.historyConfig.enabled = false →
      undo ap st = Except.error historyDisabledMsg ∧
      redo ap st = Except.error historyDisabledMsg) ∧
    (st.historyConfig.enabled = true →
      undo ap st = Except.ok (undoCore ap st) ∧
      redo ap st = Except.ok (redoCore ap st)) ∧
    (st.historyState.cursor < 0 →
      undoCore ap st = { store := st, notified := [], guardDelay := none }) ∧
    (listGetInt st.historyState.list (st.historyState.cursor + 1) = none →
      redoCore ap st = { store := st, notified := [], guardDelay := none }) := by
  refine ⟨?_, ?_, ?_, ?_⟩
  · intro h
    constructor <;> simp [undo, redo, h]
  · intro h
    constructor <;> simp [undo, redo, h]
  · intro h
    simp [undoCore, h]
  · intro h
    simp [redoCore, h]

/-- C8 witness: the error on a history-less store; the silent no-ops with
nothing to undo (after undoing the only entry) and nothing to redo. -/
theorem c8_error_iff_disabled_witness :
    (init Nat Nat 0 optsPlain).historyConfig.enabled = false ∧
    undo apReplace (init Nat Nat 0 optsPlain) = Except.error historyDisabledMsg ∧
    (undoStep apReplace (runSteps (init Nat Nat 0 optsH) [step1])).historyState.cursor < 0 ∧
    undoCore apReplace (undoStep apReplace (runSteps (init Nat Nat 0 optsH) [step1]))
      = { store := undoStep apReplace (runSteps (init Nat Nat 0 optsH) [step1])
          notified := [], guardDelay := none } ∧
    listGetInt (init Nat Nat 0 optsH).historyState.list
      ((init Nat Nat 0 optsH).historyState.cursor + 1) = none ∧
    redoCore apReplace (init Nat Nat 0 optsH)
      = { store := init Nat Nat 0 optsH, notified := [], guardDelay := none } :=
  ⟨rfl,
    ((c8_error_iff_disabled apReplace (init Nat Nat 0 optsPlain)).1 rfl).1,
    by decide,
    (c8_error_iff_disabled apReplace
      (undoStep apReplace (runSteps (init Nat Nat 0 optsH) [step1]))).2.2.1 (by decide),
    rfl,
    (c8_error_iff_disabled apReplace (init Nat Nat 0 optsH)).2.2.2 rfl⟩

/-- C10: the bodies of `undo` and `redo` never invoke a registered
listener; only the mutation entry point does, delivering the same
`(newState, prevState)` pair to every registered listener. -/
theorem c10_undo_redo_frame {σ π ε : Type} (ap : σ → List π → σ) (st : BaseStore σ π) :
    (∀ r, undo ap st = Except.ok r → r.notified = []) ∧
    (∀ r, redo ap st = Except.ok r → r.notified = []) ∧
    (∀ (fn : σ → Except ε (σ × List π × List π)) (disableRecord : Bool)
      (n : σ) (p ip : List π), fn st.state = Except.ok (n, p, ip) →
      (produceData st fn disableRecord).notified
        = st.listeners.map (fun _ => (n, st.state))) := by
  refine ⟨?_, ?_, ?_⟩
  · intro r h
    unfold undo at h
    split at h
    · cases h
      exact undoCore_notified ap st
    · cases h
  · intro r h
    unfold redo at h
    split at h
    · cases h
      exact redoCore_notified ap st
    · cases h
  · intro fn disableRecord n p ip h
    simp [produceData, h]

/-- C10 witness: a successful undo after one recorded mutation notifies
nobody, while the mutation itself delivered one pair per listener (none
registered here). -/
theorem c10_undo_redo_frame_witness :
    undo apReplace (runSteps (init Nat Nat 0 optsH) [step1])
      = Except.ok (undoCore apReplace (runSteps (init Nat Nat 0 optsH) [step1])) ∧
    (undoCore apReplace (runSteps (init Nat Nat 0 optsH) [step1])).notified = [] ∧
    okFn step1 (init Nat Nat 0 optsH).state = Except.ok (1, [1], [0]) ∧
    (produceData (init Nat Nat 0 optsH) (okFn step1) false).notified
      = (init Nat Nat 0 optsH).listeners.map
          (fun _ => (1, (init Nat Nat 0 optsH).state)) :=
  ⟨rfl,
    (c10_undo_redo_frame (ε := String) apReplace
      (runSteps (init Nat Nat 0 optsH) [step1])).1 _ rfl,
    rfl,
    (c10_undo_redo_frame apReplace (init Nat Nat 0 optsH)).2.2
      (okFn step1) false 1 [1] [0] rfl⟩

/-- C9 counterexample: with history enabled and the default
`debounceTime = 100`, the recorded mutation arms the entry-closing debounce
timer with `200` milliseconds (`debounceTime + 100` from the constructor),
while the guard `setTimeout` of an undo uses `100` — not the same
duration, contrary to the claim. -/
theorem c9_counterexample :
    optsH.historyDebounceTime = 100 ∧
    (produceData (init Nat Nat 0 optsH) (okFn step1) false).armedClearDelay = some 200 ∧
    (undoCore apReplace
      (produceData (init Nat Nat 0 optsH) (okFn step1) false).store).guardDelay
        = some 100 ∧
    ¬ ((some 200 : Option Nat) = some 100) :=
  ⟨rfl, rfl, rfl, by decide⟩

/-- C9 (amended): the entry-closing debounce timer is armed with
`debounceTime + 100`, one hundred milliseconds more than the `debounceTime`
the undo/redo suppression guard is cleared after, so Recording returns to
Idle `debounceTime + 100` after the last mutation. -/
theorem c9_amended_delays {σ π ε : Type} (ap : σ → List π → σ)
    (opts : StoreOptions) (s0 : σ) (fn : σ → Except ε (σ × List π × List π))
    (n : σ) (p ip : List π)
    (hen : opts.enableHistory = true) (hfn : fn s0 = Except.ok (n, p, ip)) :
    (produceData (init σ π s0 opts) fn false).armedClearDelay
        = some (opts.historyDebounceTime + 100) ∧
    (undoCore ap (produceData (init σ π s0 opts) fn false).store).guardDelay
        = some opts.historyDebounceTime ∧
    opts.historyDebounceTime + 100 ≠ opts.historyDebounceTime := by
  have hinit : (init σ π s0 opts).state = s0 := rfl
  refine ⟨?_, ?_, by omega⟩
  · simp [produceData, init, hfn, hen]
  · simp [produceData, init, hfn, hen, recordHistory, truncateAfterCursor,
      truncateGo, undoCore, listGetInt]

/-!  Lemmas on the history engine. -/

lemma chain_cons {σ π : Type} (ap : σ → List π → σ) (s : σ) (m : MutStep σ π)
    (rest : List (MutStep σ π)) :
    chain ap s (m :: rest) ↔
      (ap s m.patches = m.next ∧ ap m.next m.inversePatches = s ∧ chain ap m.next rest) :=
  Iff.rfl

lemma stateAt_cons {σ π : Type} (s : σ) (m : MutStep σ π) (rest : List (MutStep σ π)) :
    stateAt s (m :: rest) = stateAt m.next rest :=
  rfl

lemma truncateGo_of_ge {π : Type} (fuel : Nat) (c : Int) (l : List (HistoryEntry π))
    (h : ¬ c < (l.length : Int) - 1) : truncateGo fuel c l = l := by
  cases fuel with
  | zero => rfl
  | succ n => simp [truncateGo, h]

lemma truncate_self {π : Type} (c : Int) (l : List (HistoryEntry π))
    (h : (l.length : Int) - 1 ≤ c) : truncateAfterCursor c l = l :=
  truncateGo_of_ge _ _ _ (by omega)

lemma truncateGo_eq_take {π : Type} :
    ∀ (n : Nat) (l : List (HistoryEntry π)) (c : Int), l.length ≤ n → -1 ≤ c →
      truncateGo n c l = l.take ((c + 1).toNat) := by
  intro n
  induction n with
  | zero =>
    intro l c hl _
    have hnil : l = [] := List.length_eq_zero.mp (Nat.le_zero.mp hl)
    subst hnil
    simp [truncateGo]
  | succ n ih =>
    intro l c hl hc
    unfold truncateGo
    by_cases h : c < (l.length : Int) - 1
    · rw [if_pos h]
      have hdl : l.dropLast.length ≤ n := by
        rw [List.length_dropLast]
        omega
      rw [ih l.dropLast c hdl hc, List.dropLast_eq_take, List.take_take]
      have hle : (c + 1).toNat ≤ l.length - 1 := by omega
      rw [Nat.min_eq_left hle]
    · rw [if_neg h]
      have hge : l.length ≤ (c + 1).toNat := by omega
      rw [List.take_of_length_le hge]

lemma truncate_eq_take {π : Type} (c : Int) (l : List (HistoryEntry π))
    (hc : -1 ≤ c) : truncateAfterCursor c l = l.take ((c + 1).toNat) :=
  truncateGo_eq_take l.length l c le_rfl hc

lemma modifyAt_length {α : Type} (f : α → α) :
    ∀ (l : List α) (i : Nat), (modifyAt l i f).length = l.length := by
  intro l
  induction l with
  | nil => intro i; rfl
  | cons x xs ih =>
    intro i
    cases i with
    | zero => rfl
    | succ n => simpa [modifyAt] using ih n

lemma modifyAt_get_self {α : Type} (f : α → α) :
    ∀ (l : List α) (i : Nat) (e : α), l.get? i = some e →
      (modifyAt l i f).get? i = some (f e) := by
  intro l
  induction l with
  | nil => intro i e h; cases h
  | cons x xs ih =>
    intro i e h
    cases i with
    | zero =>
      cases h
      rfl
    | succ n => exact ih n e h

lemma stateAt_append {σ π : Type} (s : σ) (xs ys : List (MutStep σ π)) :
    stateAt s (xs ++ ys) = stateAt (stateAt s xs) ys :=
  List.foldl_append _ _ _ _

lemma chain_append {σ π : Type} (ap : σ → List π → σ) :
    ∀ (xs ys : List (MutStep σ π)) (s : σ),
      chain ap s (xs ++ ys) ↔ (chain ap s xs ∧ chain ap (stateAt s xs) ys) := by
  intro xs
  induction xs with
  | nil =>
    intro ys s
    simp [chain, stateAt]
  | cons m rest ih =>
    intro ys s
    rw [List.cons_append, chain_cons, chain_cons, ih, stateAt_cons]
    tauto

lemma undo_fold {σ π : Type} (ap : σ → List π → σ) :
    ∀ (steps : List (MutStep σ π)) (s : σ), chain ap s steps →
      List.foldl ap (stateAt s steps) ((steps.map MutStep.inversePatches).reverse) = s := by
  intro steps
  induction steps with
  | nil =>
    intro s _
    rfl
  | cons m rest ih =>
    intro s hch
    rw [chain_cons] at hch
    obtain ⟨-, h2, h3⟩ := hch
    rw [stateAt_cons, List.map_cons, List.reverse_cons, List.foldl_append, ih m.next h3]
    simpa using h2

lemma stepStore_fields {σ π : Type} (st : BaseStore σ π) (m : MutStep σ π)
    (hen : st.historyConfig.enabled = true)
    (hpp : st.historyState.preventPatches = false)
    (hlast : st.historyState.last = none)
    (hcur : (st.historyState.list.length : Int) - 1 ≤ st.historyState.cursor)
    (hno : st.historyState.list.length ≤ st.historyConfig.maxLength) :
    stepStore st m =
      { st with
        state := m.next
        historyState :=
          { st.historyState with
            list := st.historyState.list ++ [mkEntry m]
            cursor := (st.historyState.list.length : Int)
            last := none } } := by
  unfold stepStore clearLastFired produceData okFn recordHistory
  simp only [hen, hpp, hlast, Bool.not_false, Bool.and_self, if_pos,
    Bool.true_and, Bool.and_true, ite_true]
  rw [truncate_self _ _ hcur]
  rw [if_neg (by omega)]
  simp [mkEntry]

lemma undoStep_at {σ π : Type} (ap : σ → List π → σ) (st : BaseStore σ π)
    (k : Nat) (e : HistoryEntry π)
    (hk : st.historyState.cursor = (k : Int))
    (hget : st.historyState.list.get? k = some e) :
    undoStep ap st =
      { st with
        state := e.inversePatches.foldl ap st.state
        historyState :=
          { st.historyState with
            preventPatches := true
            cursor := st.historyState.cursor - 1 } } := by
  unfold undoStep undoCore
  dsimp only
  rw [if_neg (by omega)]
  unfold listGetInt
  rw [if_pos (by omega), hk]
  simp only [Int.toNat_natCast, hget]

lemma redoStep_at {σ π : Type} (ap : σ → List π → σ) (st : BaseStore σ π)
    (k : Nat) (e : HistoryEntry π)
    (hk : st.historyState.cursor + 1 = (k : Int))
    (hget : st.historyState.list.get? k = some e) :
    redoStep ap st =
      { st with
        state := e.patches.foldl ap st.state
        historyState :=
          { st.historyState with
            preventPatches := true
            cursor := st.historyState.cursor + 1 } } := by
  unfold redoStep redoCore
  dsimp only
  unfold listGetInt
  rw [if_pos (by omega), hk]
  simp only [Int.toNat_natCast, hget]

lemma coalStep_open {σ π : Type} (st : BaseStore σ π) (m : MutStep σ π)
    (i : Nat)
    (hen : st.historyConfig.enabled = true)
    (hpp : st.historyState.preventPatches = false)
    (hlast : st.historyState.last = some i) :
    coalStep st m =
      { st with
        state := m.next
        historyState :=
          { st.historyState with
            list := modifyAt st.historyState.list i (fun e0 =>
              { patches := e0.patches ++ [m.patches]
                inversePatches := m.inversePatches :: e0.inversePatches }) } } := by
  unfold coalStep produceData okFn recordHistory
  simp [hen, hpp, hlast]

lemma coalStep_init {σ π : Type} (opts : StoreOptions) (s0 : σ) (m : MutStep σ π)
    (hen : opts.enableHistory = true) :
    coalStep (init σ π s0 opts) m =
      { init σ π s0 opts with
        state := m.next
        historyState :=
          { list := [mkEntry m], cursor := 0, last := some 0
            preventPatches := false, keepRecord := false } } := by
  unfold coalStep produceData okFn recordHistory init truncateAfterCursor truncateGo
  simp [hen, mkEntry]

lemma run_sep {σ π : Type} :
    ∀ (steps : List (MutStep σ π)) (st : BaseStore σ π),
      st.historyConfig.enabled = true →
      st.historyState.preventPatches = false →
      st.historyState.last = none →
      st.historyState.cursor = (st.historyState.list.length : Int) - 1 →
      st.historyState.list.length + steps.length ≤ st.historyConfig.maxLength + 1 →
      (runSteps st steps).state = stateAt st.state steps ∧
      (runSteps st steps).historyConfig = st.historyConfig ∧
      (runSteps st steps).historyState.preventPatches = false ∧
      (runSteps st steps).historyState.last = none ∧
      (runSteps st steps).historyState.list
        = st.historyState.list ++ steps.map mkEntry ∧
      (runSteps st steps).historyState.cursor
        = (st.historyState.list.length : Int) + steps.length - 1 := by
  intro steps
  induction steps with
  | nil =>
    intro st _ h2 h3 h4 _
    refine ⟨rfl, rfl, h2, h3, by simp [runSteps], ?_⟩
    show st.historyState.cursor = _
    simp
    omega
  | cons m rest ih =>
    intro st h1 h2 h3 h4 h5
    have hstep := stepStore_fields st m h1 h2 h3 (by omega) (by simp at h5; omega)
    have hrun : runSteps st (m :: rest) = runSteps (stepStore st m) rest := rfl
    rw [hrun, hstep]
    rcases ih
        { st with
          state := m.next
          historyState :=
            { st.historyState with
              list := st.historyState.list ++ [mkEntry m]
              cursor := (st.historyState.list.length : Int)
              last := none } }
        h1 h2 rfl (by simp) (by simp at h5 ⊢; omega)
      with ⟨ih1, ih2, ih3, ih4, ih5, ih6⟩
    refine ⟨?_, ih2, ih3, ih4, ?_, ?_⟩
    · rw [ih1, stateAt_cons]
    · rw [ih5]
      simp
    · rw [ih6]
      simp
      omega

lemma undo_all {σ π : Type} (ap : σ → List π → σ) (s0 : σ) :
    ∀ (steps : List (MutStep σ π)) (extra : List (HistoryEntry π))
      (st : BaseStore σ π),
      chain ap s0 steps →
      st.historyState.list = steps.map mkEntry ++ extra →
      st.historyState.cursor = (steps.length : Int) - 1 →
      st.state = stateAt s0 steps →
      ((undoStep ap)^[steps.length] st).state = s0 ∧
      ((undoStep ap)^[steps.length] st).historyConfig = st.historyConfig ∧
      ((undoStep ap)^[steps.length] st).historyState.list
        = st.historyState.list ∧
      ((undoStep ap)^[steps.length] st).historyState.cursor = -1 := by
  intro steps
  induction steps using List.reverseRecOn with
  | nil =>
    intro extra st _ _ hcur hstate
    exact ⟨hstate, rfl, rfl, by simpa using hcur⟩
  | append_singleton ys y ih =>
    intro extra st hch hlist hcur hstate
    rw [chain_append] at hch
    obtain ⟨hchys, hy⟩ := hch
    rw [chain_cons] at hy
    obtain ⟨-, hy2, -⟩ := hy
    have hget : st.historyState.list.get? ys.length = some (mkEntry y) := by
      rw [hlist]
      have hsplit : (ys ++ [y]).map mkEntry ++ extra
          = ys.map mkEntry ++ (mkEntry y :: extra) := by simp
      rw [hsplit, List.get?_append_right (by simp)]
      simp
    have hk : st.historyState.cursor = ((ys.length : Nat) : Int) := by
      rw [hcur]
      simp
    have hstep := undoStep_at ap st ys.length (mkEntry y) hk hget
    have hlen : (ys ++ [y]).length = ys.length + 1 := by simp
    rw [hlen, Function.iterate_succ_apply, hstep]
    have hst1 : (mkEntry y).inversePatches.foldl ap st.state = stateAt s0 ys := by
      rw [hstate, stateAt_append]
      simpa [mkEntry, stateAt] using hy2
    rcases ih (mkEntry y :: extra)
        { st with
          state := (mkEntry y).inversePatches.foldl ap st.state
          historyState :=
            { st.historyState with
              preventPatches := true
              cursor := st.historyState.cursor - 1 } }
        hchys (by rw [hlist]; simp) (by rw [hk]) hst1
      with ⟨ih1, ih2, ih3, ih4⟩
    exact ⟨ih1, ih2, ih3, ih4⟩

lemma redo_all {σ π : Type} (ap : σ → List π → σ) :
    ∀ (steps : List (MutStep σ π)) (pre extra : List (HistoryEntry π))
      (s1 : σ) (st : BaseStore σ π),
      chain ap s1 steps →
      st.historyState.list = pre ++ steps.map mkEntry ++ extra →
      st.historyState.cursor = (pre.length : Int) - 1 →
      st.state = s1 →
      ((redoStep ap)^[steps.length] st).state = stateAt s1 steps ∧
      ((redoStep ap)^[steps.length] st).historyState.list
        = st.historyState.list ∧
      ((redoStep ap)^[steps.length] st).historyState.cursor
        = (pre.length : Int) + steps.length - 1 := by
  intro steps
  induction steps with
  | nil =>
    intro pre extra s1 st _ _ hcur hstate
    exact ⟨hstate, rfl, by simpa using hcur⟩
  | cons m rest ih =>
    intro pre extra s1 st hch hlist hcur hstate
    rw [chain_cons] at hch
    obtain ⟨h1, -, h3⟩ := hch
    have hget : st.historyState.list.get? pre.length = some (mkEntry m) := by
      rw [hlist, List.append_assoc, List.get?_append_right le_rfl]
      simp
    have hk : st.historyState.cursor + 1 = ((pre.length : Nat) : Int) := by omega
    have hstep := redoStep_at ap st pre.length (mkEntry m) hk hget
    rw [List.length_cons, Function.iterate_succ_apply, hstep]
    have hst1 : (mkEntry m).patches.foldl ap st.state = m.next := by
      rw [hstate]
      simpa [mkEntry] using h1
    rcases ih (pre ++ [mkEntry m]) extra m.next
        { st with
          state := (mkEntry m).patches.foldl ap st.state
          historyState :=
            { st.historyState with
              preventPatches := true
              cursor := st.historyState.cursor + 1 } }
        h3 (by rw [hlist]; simp) (by rw [hk]; simp) hst1
      with ⟨ih1, ih2, ih3⟩
    refine ⟨?_, ih2, ?_⟩
    · rw [ih1, stateAt_cons]
    · rw [ih3]
      simp
      omega

/-- C1 (amended): for a store with history enabled and a sequence of
`N ≤ maxLength + 1` mutations, each recorded as a separate entry (the
debounce timer fired between them) and satisfying the immer patch
contract, `undo()` `N` times returns the state to the pre-first-mutation
value and `redo()` `N` times afterwards returns it to the post-`N`-th
value.  The bound is forced by eviction: the code retains at most
`maxLength + 1` entries (its eviction check is strictly greater-than). -/
theorem c1_history_round_trip {σ π : Type} (ap : σ → List π → σ)
    (opts : StoreOptions) (s0 : σ) (steps : List (MutStep σ π))
    (hen : opts.enableHistory = true)
    (hch : chain ap s0 steps)
    (hb : steps.length ≤ opts.historyLength + 1) :
    ((undoStep ap)^[steps.length] (runSteps (init σ π s0 opts) steps)).state = s0 ∧
    ((redoStep ap)^[steps.length]
      ((undoStep ap)^[steps.length] (runSteps (init σ π s0 opts) steps))).state
        = stateAt s0 steps := by
  cases steps with
  | nil => exact ⟨rfl, rfl⟩
  | cons m rest =>
    have hen' : (init σ π s0 opts).historyConfig.enabled = true := hen
    have hstep := stepStore_fields (init σ π s0 opts) m hen' rfl rfl
      (by simp [init]) (by simp [init])
    have hrun : runSteps (init σ π s0 opts) (m :: rest)
        = runSteps (stepStore (init σ π s0 opts) m) rest := rfl
    rw [hrun, hstep]
    rcases run_sep rest
        { init σ π s0 opts with
          state := m.next
          historyState :=
            { (init σ π s0 opts).historyState with
              list := (init σ π s0 opts).historyState.list ++ [mkEntry m]
              cursor := ((init σ π s0 opts).historyState.list.length : Int)
              last := none } }
        hen rfl rfl (by simp [init]) (by simp [init]; simp at hb; omega)
      with ⟨r1, r2, r3, r4, r5, r6⟩
    have hlist : (runSteps
        { init σ π s0 opts with
          state := m.next
          historyState :=
            { (init σ π s0 opts).historyState with
              list := (init σ π s0 opts).historyState.list ++ [mkEntry m]
              cursor := ((init σ π s0 opts).historyState.list.length : Int)
              last := none } } rest).historyState.list
        = (m :: rest).map mkEntry ++ [] := by
      rw [r5]
      simp [init]
    have hcur : (runSteps
        { init σ π s0 opts with
          state := m.next
          historyState :=
            { (init σ π s0 opts).historyState with
              list := (init σ π s0 opts).historyState.list ++ [mkEntry m]
              cursor := ((init σ π s0 opts).historyState.list.length : Int)
              last := none } } rest).historyState.cursor
        = (((m :: rest).length : Nat) : Int) - 1 := by
      rw [r6]
      simp [init]
    have hstate : (runSteps
        { init σ π s0 opts with
          state := m.next
          historyState :=
            { (init σ π s0 opts).historyState with
              list := (init σ π s0 opts).historyState.list ++ [mkEntry m]
              cursor := ((init σ π s0 opts).historyState.list.length : Int)
              last := none } } rest).state = stateAt s0 (m :: rest) := by
      rw [r1, stateAt_cons]
    rcases undo_all ap s0 (m :: rest) [] _ hch hlist hcur hstate
      with ⟨u1, u2, u3, u4⟩
    refine ⟨u1, ?_⟩
    rcases redo_all ap (m :: rest) [] [] s0 _ hch
        (by rw [u3, hlist]; simp) (by rw [u4]; simp) u1
      with ⟨r1', r2', r3'⟩
    exact r1'

/-- C1 counterexample: with `maxLength = 1` and three debounce-separated
replace mutations `0 → 1 → 2 → 3`, the first entry is evicted, so three
`undo()` calls leave the state at `1`, not at the pre-first-mutation
value `0` — the claim fails without a bound on `N`. -/
theorem c1_history_round_trip_counterexample :
    optsML1.enableHistory = true ∧
    chain apReplace 0 [step1, step2, step3] ∧
    ((undoStep apReplace)^[3]
      (runSteps (init Nat Nat 0 optsML1) [step1, step2, step3])).state = 1 ∧
    ¬ (((undoStep apReplace)^[3]
      (runSteps (init Nat Nat 0 optsML1) [step1, step2, step3])).state = 0) :=
  ⟨rfl, ⟨rfl, rfl, rfl, rfl, rfl, rfl, trivial⟩, rfl, by decide⟩

/-- C1 witness: the round trip at `maxLength = 30` with two mutations
`0 → 1 → 2`. -/
theorem c1_history_round_trip_witness :
    optsH.enableHistory = true ∧
    chain apReplace 0 [step1, step2] ∧
    [step1, step2].length ≤ optsH.historyLength + 1 ∧
    (((undoStep apReplace)^[[step1, step2].length]
      (runSteps (init Nat Nat 0 optsH) [step1, step2])).state = 0 ∧
    ((redoStep apReplace)^[[step1, step2].length]
      ((undoStep apReplace)^[[step1, step2].length]
        (runSteps (init Nat Nat 0 optsH) [step1, step2]))).state
          = stateAt 0 [step1, step2]) :=
  ⟨rfl, ⟨rfl, rfl, rfl, rfl, trivial⟩, by decide,
    c1_history_round_trip apReplace optsH 0 [step1, step2] rfl
      ⟨rfl, rfl, rfl, rfl, trivial⟩ (by decide)⟩

/-- C2: evaluation of the code at the claim's own scenario.  With
`maxLength = 2` and three debounce-separated mutations the history list
holds three entries (the eviction check `list.length > maxLength` is
strict, so nothing was evicted), and three `undo()` calls reach the true
initial value `0` — where the claim (and the repository's documentation of
`maxLength` as the maximum history length) expects at most two retained
entries and the undos to stop at the post-first-mutation value `1`. -/
theorem c2_bounded_history_divergence :
    optsML2.historyLength = 2 ∧
    (runSteps (init Nat Nat 0 optsML2)
      [step1, step2, step3]).historyState.list.length = 3 ∧
    ¬ ((runSteps (init Nat Nat 0 optsML2)
      [step1, step2, step3]).historyState.list.length ≤ 2) ∧
    ((undoStep apReplace)^[3]
      (runSteps (init Nat Nat 0 optsML2) [step1, step2, step3])).state = 0 ∧
    ¬ (((undoStep apReplace)^[3]
      (runSteps (init Nat Nat 0 optsML2) [step1, step2, step3])).state = 1) :=
  ⟨rfl, rfl, by decide, rfl, by decide⟩

/-- With history enabled, a `redo` whose `cursor + 1` holds no entry is a
silent no-op. -/
lemma redo_noop {σ π : Type} (ap : σ → List π → σ) (st : BaseStore σ π)
    (hen : st.historyConfig.enabled = true)
    (hnone : listGetInt st.historyState.list (st.historyState.cursor + 1) = none) :
    redo ap st = Except.ok { store := st, notified := [], guardDelay := none } := by
  unfold redo
  rw [if_pos hen]
  congr 1
  unfold redoCore
  dsimp only
  rw [hnone]

/-- C6: a recording with no open entry first truncates the history list to
`cursor + 1` entries (then applies the eviction check) before appending the
fresh entry, and immediately afterwards `redo()` is a silent no-op — the
discarded entries can never be replayed. -/
theorem c6_redo_stack_invalidation {σ π ε : Type} (ap : σ → List π → σ)
    (st : BaseStore σ π) (fn : σ → Except ε (σ × List π × List π))
    (n : σ) (p ip : List π)
    (hen : st.historyConfig.enabled = true)
    (hlast : st.historyState.last = none)
    (hpp : st.historyState.preventPatches = false)
    (hc : -1 ≤ st.historyState.cursor)
    (hfn : fn st.state = Except.ok (n, p, ip)) :
    (produceData st fn false).store.historyState.list
      = (if st.historyConfig.maxLength
            < (st.historyState.list.take ((st.historyState.cursor + 1).toNat)).length
         then (st.historyState.list.take ((st.historyState.cursor + 1).toNat)).drop 1
         else st.historyState.list.take ((st.historyState.cursor + 1).toNat))
        ++ [{ patches := [p], inversePatches := [ip] }] ∧
    redo ap (produceData st fn false).store
      = Except.ok { store := (produceData st fn false).store
                    notified := [], guardDelay := none } := by
  have hstore : (produceData st fn false).store
      = { st with
          state := n
          historyState := recordHistory st.historyConfig st.historyState p ip } := by
    unfold produceData
    rw [hfn]
    simp [hen, hpp]
  set T := st.historyState.list.take ((st.historyState.cursor + 1).toNat) with hT
  set L := if st.historyConfig.maxLength < T.length then T.drop 1 else T with hL
  have hrec_list : (recordHistory st.historyConfig st.historyState p ip).list
      = L ++ [({ patches := [p], inversePatches := [ip] } : HistoryEntry π)] := by
    unfold recordHistory
    rw [hlast]
    dsimp only
    rw [truncate_eq_take _ _ hc, ← hT, ← hL]
  have hrec_cursor : (recordHistory st.historyConfig st.historyState p ip).cursor
      = (((L ++ [({ patches := [p], inversePatches := [ip] } : HistoryEntry π)]).length
          : Nat) : Int) - 1 := by
    unfold recordHistory
    rw [hlast]
    dsimp only
    rw [truncate_eq_take _ _ hc, ← hT, ← hL]
  constructor
  · rw [hstore]
    exact hrec_list
  · have hcalc : ∀ (l : List (HistoryEntry π)),
        listGetInt l ((l.length : Int) - 1 + 1) = none := by
      intro l
      unfold listGetInt
      rw [if_pos (by omega)]
      have ht : ((l.length : Int) - 1 + 1).toNat = l.length := by omega
      rw [ht, List.get?_eq_none.mpr le_rfl]
    apply redo_noop
    · rw [hstore]
      exact hen
    · rw [hstore]
      dsimp only
      rw [hrec_list, hrec_cursor]
      exact hcalc _

/-- Replace-patch mutation `1 → 7` (a fresh edit after an undo). -/
def step7 : MutStep Nat Nat := { next := 7, patches := [7], inversePatches := [1] }

/-- C6 witness: mutate twice (`0 → 1 → 2`), undo once (back to `1`, guard
then cleared), mutate to `7`; the undone entry is discarded and `redo()`
does nothing. -/
theorem c6_redo_stack_invalidation_witness :
    (preventGuardFired (undoStep apReplace
        (runSteps (init Nat Nat 0 optsH) [step1, step2]))).historyConfig.enabled
      = true ∧
    (preventGuardFired (undoStep apReplace
        (runSteps (init Nat Nat 0 optsH) [step1, step2]))).historyState.last = none ∧
    redo apReplace (produceData (preventGuardFired (undoStep apReplace
        (runSteps (init Nat Nat 0 optsH) [step1, step2]))) (okFn step7) false).store
      = Except.ok
          { store := (produceData (preventGuardFired (undoStep apReplace
              (runSteps (init Nat Nat 0 optsH) [step1, step2]))) (okFn step7) false).store
            notified := [], guardDelay := none } :=
  ⟨rfl, rfl,
    (c6_redo_stack_invalidation apReplace
      (preventGuardFired (undoStep apReplace
        (runSteps (init Nat Nat 0 optsH) [step1, step2])))
      (okFn step7) 7 [7] [1] rfl rfl rfl (by decide) rfl).2⟩

lemma coal_rest {σ π : Type} :
    ∀ (rest : List (MutStep σ π)) (st : BaseStore σ π) (i : Nat) (e : HistoryEntry π),
      st.historyConfig.enabled = true →
      st.historyState.preventPatches = false →
      st.historyState.last = some i →
      st.historyState.list.get? i = some e →
      (runCoalesced st rest).state = stateAt st.state rest ∧
      (runCoalesced st rest).historyConfig = st.historyConfig ∧
      (runCoalesced st rest).historyState.cursor = st.historyState.cursor ∧
      (runCoalesced st rest).historyState.list.length
        = st.historyState.list.length ∧
      (runCoalesced st rest).historyState.list.get? i
        = some { patches := e.patches ++ rest.map MutStep.patches
                 inversePatches :=
                   (rest.map MutStep.inversePatches).reverse ++ e.inversePatches } := by
  intro rest
  induction rest with
  | nil =>
    intro st i e _ _ _ hget
    refine ⟨rfl, rfl, rfl, rfl, ?_⟩
    simpa using hget
  | cons m tail ih =>
    intro st i e hen hpp hlast hget
    have hstep := coalStep_open st m i hen hpp hlast
    have hrun : runCoalesced st (m :: tail) = runCoalesced (coalStep st m) tail := rfl
    rw [hrun, hstep]
    rcases ih
        { st with
          state := m.next
          historyState :=
            { st.historyState with
              list := modifyAt st.historyState.list i (fun e0 =>
                { patches := e0.patches ++ [m.patches]
                  inversePatches := m.inversePatches :: e0.inversePatches }) } }
        i { patches := e.patches ++ [m.patches]
            inversePatches := m.inversePatches :: e.inversePatches }
        hen hpp hlast (modifyAt_get_self _ _ _ _ hget)
      with ⟨c1, c2, c3, c4, c5⟩
    refine ⟨by rw [c1, stateAt_cons], c2, c3, ?_, ?_⟩
    · rw [c4]
      exact modifyAt_length _ _ _
    · rw [c5]
      simp

/-- C7: a mutation recorded while an entry is open appends its forward
batch at the end of the entry's `patches` and prepends its inverse batch at
the front of its `inversePatches` (cursor untouched); consequently a burst
of mutations inside the debounce window coalesces into a single entry and
one `undo()` replays all the inverse batches in list order, reverting the
whole burst to the pre-burst state. -/
theorem c7_history_coalescing {σ π : Type} (ap : σ → List π → σ)
    (cfg : HistoryConfig) :
    (∀ (s : HistoryState π) (p ip : List π) (i : Nat) (e : HistoryEntry π),
      s.last = some i → s.list.get? i = some e →
      (recordHistory cfg s p ip).list.get? i
          = some { patches := e.patches ++ [p]
                   inversePatches := ip :: e.inversePatches } ∧
        (recordHistory cfg s p ip).cursor = s.cursor) ∧
    (∀ (opts : StoreOptions) (s0 : σ) (m : MutStep σ π)
      (rest : List (MutStep σ π)),
      opts.enableHistory = true → chain ap s0 (m :: rest) →
      (runCoalesced (init σ π s0 opts) (m :: rest)).historyState.list.length = 1 ∧
      (undoStep ap (runCoalesced (init σ π s0 opts) (m :: rest))).state = s0) := by
  constructor
  · intro s p ip i e hlast hget
    constructor
    · unfold recordHistory
      rw [hlast]
      exact modifyAt_get_self _ _ _ _ hget
    · unfold recordHistory
      rw [hlast]
  · intro opts s0 m rest hen hch
    rw [chain_cons] at hch
    obtain ⟨-, hy2, hch3⟩ := hch
    have hrun : runCoalesced (init σ π s0 opts) (m :: rest)
        = runCoalesced (coalStep (init σ π s0 opts) m) rest := rfl
    rw [hrun, coalStep_init opts s0 m hen]
    rcases coal_rest rest
        { init σ π s0 opts with
          state := m.next
          historyState :=
            { list := [mkEntry m], cursor := 0, last := some 0
              preventPatches := false, keepRecord := false } }
        0 (mkEntry m) hen rfl rfl rfl
      with ⟨c1, c2, c3, c4, c5⟩
    refine ⟨by rw [c4]; rfl, ?_⟩
    have hstep := undoStep_at ap _ 0
        { patches := (mkEntry m).patches ++ rest.map MutStep.patches
          inversePatches :=
            (rest.map MutStep.inversePatches).reverse ++ (mkEntry m).inversePatches }
        (by rw [c3]; rfl) c5
    rw [hstep]
    show ((rest.map MutStep.inversePatches).reverse
        ++ (mkEntry m).inversePatches).foldl ap _ = s0
    rw [List.foldl_append, c1]
    have hfold := undo_fold ap rest m.next hch3
    show List.foldl ap _ (mkEntry m).inversePatches = s0
    rw [show stateAt ({ init σ π s0 opts with
          state := m.next
          historyState :=
            { list := [mkEntry m], cursor := 0, last := some 0
              preventPatches := false, keepRecord := false } } :
        BaseStore σ π).state rest = stateAt m.next rest from rfl, hfold]
    simpa [mkEntry] using hy2

/-- C7 witness: three replace mutations `0 → 1 → 2 → 3` inside the debounce
window form one entry, with batches appended/prepended in order, and one
`undo()` reverts the state to `0`. -/
theorem c7_history_coalescing_witness :
    optsH.enableHistory = true ∧
    chain apReplace 0 [step1, step2, step3] ∧
    (runCoalesced (init Nat Nat 0 optsH)
      [step1, step2, step3]).historyState.list.length = 1 ∧
    (undoStep apReplace
      (runCoalesced (init Nat Nat 0 optsH) [step1, step2, step3])).state = 0 :=
  ⟨rfl, ⟨rfl, rfl, rfl, rfl, rfl, rfl, trivial⟩,
    (c7_history_coalescing apReplace (init Nat Nat 0 optsH).historyConfig).2
      optsH 0 step1 [step2, step3] rfl ⟨rfl, rfl, rfl, rfl, rfl, rfl, trivial⟩⟩

/-- C9 amended witness: the concrete delays at the default configuration. -/
theorem c9_amended_delays_witness :
    optsH.enableHistory = true ∧
    okFn step1 (0 : Nat) = Except.ok (1, [1], [0]) ∧
    (produceData (init Nat Nat 0 optsH) (okFn step1) false).armedClearDelay
        = some (optsH.historyDebounceTime + 100) ∧
    (undoCore apReplace
      (produceData (init Nat Nat 0 optsH) (okFn step1) false).store).guardDelay
        = some optsH.historyDebounceTime :=
  ⟨rfl, rfl,
    (c9_amended_delays apReplace optsH 0 (okFn step1) 1 [1] [0] rfl rfl).1,
    (c9_amended_delays apReplace optsH 0 (okFn step1) 1 [1] [0] rfl rfl).2.1⟩

end Zenith
